import Mathlib

/-! Verification of the HeaderFormatter transform (src/script.js).

Shallow embedding of `formatHeaders` from `src/script.js`:

```js
function formatHeaders() {
  const input = document.getElementById("inputHeaders").value.trim();
  const lines = input.split("\n").filter(Boolean);
  let result = "";
  for (let i = 0; i < lines.length; i += 2) {
    const key = lines[i]?.trim();
    const value = lines[i + 1]?.trim();
    if (key && value) {
      result += `${key}: ${value}\n`;
    }
  }
  document.getElementById("outputHeaders").value = result.trim();
}
```

Strings are modelled as `List Char`; the DOM reads/writes become the
function's argument and result.  `String.prototype.trim` removes the
ECMAScript WhiteSpace and LineTerminator code points from both ends;
`split("\n")` splits on LINE FEED only; `filter(Boolean)` keeps exactly
the non-empty strings (a whitespace-only string is truthy); `lines[i]`
out of bounds is `undefined`, guarded by the optional chain `?.`, and
`key && value` tests string truthiness (non-emptiness).
-/

/-- The ECMAScript WhiteSpace and LineTerminator code points removed by
`String.prototype.trim` (TAB, LF, VT, FF, CR, SP, NBSP, and the Unicode
space separators, line/paragraph separators and ZWNBSP). -/
def isJSWhitespace (c : Char) : Bool :=
  c.toNat = 9 || c.toNat = 10 || c.toNat = 11 || c.toNat = 12 || c.toNat = 13 ||
  c.toNat = 32 || c.toNat = 160 || c.toNat = 0x1680 ||
  (0x2000 ≤ c.toNat && c.toNat ≤ 0x200A) ||
  c.toNat = 0x2028 || c.toNat = 0x2029 || c.toNat = 0x202F ||
  c.toNat = 0x205F || c.toNat = 0x3000 || c.toNat = 0xFEFF

/-- Left half of JS `trim`: drop leading whitespace. -/
def trimLeft (cs : List Char) : List Char :=
  cs.dropWhile isJSWhitespace

/-- Right half of JS `trim`: drop trailing whitespace. -/
def trimRight (cs : List Char) : List Char :=
  (cs.reverse.dropWhile isJSWhitespace).reverse

/-- JS `String.prototype.trim`: drop leading and trailing whitespace. -/
def trimChars (cs : List Char) : List Char :=
  trimRight (trimLeft cs)

/-- JS `input.split("\n")`: split on LINE FEED; always returns at least
one (possibly empty) segment, exactly as `"".split("\n")` yields `[""]`. -/
def splitOnNl : List Char → List (List Char)
  | [] => [[]]
  | c :: cs =>
    let r := splitOnNl cs
    if c = '\n' then [] :: r else (c :: r.head!) :: r.tail

/-- JS string truthiness: a string is truthy iff it is non-empty. -/
def jsTruthy (s : List Char) : Bool := !s.isEmpty

/-- Truthiness of a possibly-`undefined` JS value holding a string:
`undefined` is falsy, a string is truthy iff non-empty. -/
def jsTruthyOpt : Option (List Char) → Bool
  | none => false
  | some s => jsTruthy s

/-- The source's `for (let i = 0; i < lines.length; i += 2)` loop as a
structural recursion walking the array two entries at a time: at each
step `key` is `lines[i]?.trim()`, `value` is `lines[i + 1]?.trim()`
(`undefined`, i.e. absent, when `i + 1` is out of bounds), and
`` `${key}: ${value}\n` `` is appended when `key && value` is truthy. -/
def pairLoop : List (List Char) → List Char
  | [] => []
  | [k] =>
    let key := trimChars k
    let value : Option (List Char) := none
    if jsTruthy key && jsTruthyOpt value then
      key ++ (": ").data ++ value.getD [] ++ ['\n']
    else []
  | k :: v :: rest =>
    let key := trimChars k
    let value := trimChars v
    (if jsTruthy key && jsTruthy value then
        key ++ (": ").data ++ value ++ ['\n']
      else []) ++ pairLoop rest

/-- The same loop embedded index-first, exactly as the source writes it:
`i` runs over `0, 2, 4, …` while `i < lines.length`, `lines[i]` and
`lines[i + 1]` are array reads returning `undefined` out of bounds
(`List.get?`), and the optional chain `?.trim()` guards the method
call. -/
def loopIdx (lines : List (List Char)) (i : Nat) : List Char :=
  if _h : i < lines.length then
    let key : Option (List Char) := (lines.get? i).map trimChars
    let value : Option (List Char) := (lines.get? (i + 1)).map trimChars
    (if jsTruthyOpt key && jsTruthyOpt value then
        key.getD [] ++ (": ").data ++ value.getD [] ++ ['\n']
      else []) ++ loopIdx lines (i + 2)
  else []
termination_by lines.length - i

/-- Stage 1 and 2 of `formatHeaders`: `input.trim().split("\n")`. -/
def rawLines (input : List Char) : List (List Char) :=
  splitOnNl (trimChars input)

/-- Stage 3 of `formatHeaders`: `.filter(Boolean)` keeps the truthy
(non-empty) lines. -/
def filteredLines (input : List Char) : List (List Char) :=
  (rawLines input).filter jsTruthy

/-- `formatHeaders` as a function from the input text to the output
text: trim, split, filter, run the pairing loop from `i = 0`, and
`result.trim()` at the end. -/
def formatHeaders (input : List Char) : List Char :=
  trimChars (pairLoop (filteredLines input))

/-- `formatHeaders` at `String` level. -/
def format (s : String) : String :=
  String.mk (formatHeaders s.data)

/-! ## Properties of JS `trim` -/

/-- A list all of whose characters are whitespace trims to nothing on
the left. -/
theorem trimLeft_eq_nil_of_all {l : List Char} (h : ∀ c ∈ l, isJSWhitespace c) :
    trimLeft l = [] :=
  List.dropWhile_eq_nil_iff.mpr h

/-- A list all of whose characters are whitespace trims to nothing. -/
theorem trimChars_eq_nil_of_all {l : List Char} (h : ∀ c ∈ l, isJSWhitespace c) :
    trimChars l = [] := by
  unfold trimChars
  rw [trimLeft_eq_nil_of_all h]
  rfl

/-- Prepending whitespace does not change the trimmed value. -/
theorem trimChars_ws_append {w l : List Char} (h : ∀ c ∈ w, isJSWhitespace c) :
    trimChars (w ++ l) = trimChars l := by
  unfold trimChars trimLeft
  rw [List.dropWhile_append_of_pos h]

theorem trimLeft_append_of_ne_nil {l w : List Char} (h : trimLeft l ≠ []) :
    trimLeft (l ++ w) = trimLeft l ++ w := by
  unfold trimLeft at *
  rw [List.dropWhile_append, if_neg]
  simpa [List.isEmpty_iff] using h

theorem trimRight_append_ws {l w : List Char} (h : ∀ c ∈ w, isJSWhitespace c) :
    trimRight (l ++ w) = trimRight l := by
  unfold trimRight
  rw [List.reverse_append,
    List.dropWhile_append_of_pos (fun c hc => h c (List.mem_reverse.mp hc))]

/-- Appending whitespace does not change the trimmed value. -/
theorem trimChars_append_ws {l w : List Char} (h : ∀ c ∈ w, isJSWhitespace c) :
    trimChars (l ++ w) = trimChars l := by
  by_cases hl : trimLeft l = []
  · have hall : ∀ c ∈ l, isJSWhitespace c := List.dropWhile_eq_nil_iff.mp hl
    rw [trimChars_eq_nil_of_all hall, trimChars_eq_nil_of_all]
    intro c hc
    rcases List.mem_append.mp hc with h1 | h2
    · exact hall c h1
    · exact h c h2
  · unfold trimChars
    rw [trimLeft_append_of_ne_nil hl, trimRight_append_ws h]

/-- Every list splits as whitespace, its trim, and whitespace. -/
theorem exists_trim_decomp (cs : List Char) :
    ∃ w1 w2, (∀ c ∈ w1, isJSWhitespace c) ∧ (∀ c ∈ w2, isJSWhitespace c) ∧
      cs = w1 ++ trimChars cs ++ w2 := by
  refine ⟨cs.takeWhile isJSWhitespace,
    ((trimLeft cs).reverse.takeWhile isJSWhitespace).reverse,
    fun c hc => List.mem_takeWhile_imp hc,
    fun c hc => List.mem_takeWhile_imp (List.mem_reverse.mp hc), ?_⟩
  have h1 : cs = cs.takeWhile isJSWhitespace ++ trimLeft cs :=
    (List.takeWhile_append_dropWhile isJSWhitespace cs).symm
  have h2 : trimLeft cs =
      trimChars cs ++ ((trimLeft cs).reverse.takeWhile isJSWhitespace).reverse := by
    unfold trimChars trimRight
    conv_lhs => rw [← List.reverse_reverse (trimLeft cs),
      ← List.takeWhile_append_dropWhile isJSWhitespace (trimLeft cs).reverse]
    rw [List.reverse_append]
  rw [List.append_assoc, ← h2, ← h1]

/-- The trimmed value of a list is a sublist of it. -/
theorem trimChars_sublist (l : List Char) : (trimChars l).Sublist l := by
  have h1 : (trimChars l).Sublist (trimLeft l) := by
    unfold trimChars trimRight
    have := List.dropWhile_sublist (l := (trimLeft l).reverse) isJSWhitespace
    simpa using this.reverse
  exact h1.trans (List.dropWhile_sublist isJSWhitespace)

/-- A nonempty trimmed value starts with a non-whitespace character. -/
theorem trimChars_head_not_ws {l : List Char} {c : Char}
    (h : (trimChars l).head? = some c) : isJSWhitespace c = false := by
  have hpre : trimChars l ++ ((trimLeft l).reverse.takeWhile isJSWhitespace).reverse
      = trimLeft l := by
    unfold trimChars trimRight
    conv_rhs => rw [← List.reverse_reverse (trimLeft l),
      ← List.takeWhile_append_dropWhile isJSWhitespace (trimLeft l).reverse]
    rw [List.reverse_append]
  have hh : (trimLeft l).head? = some c := by
    rw [← hpre, List.head?_append, h]
    rfl
  have := List.head?_dropWhile_not isJSWhitespace l
  show isJSWhitespace c = false
  have he : List.dropWhile isJSWhitespace l = trimLeft l := rfl
  rw [he, hh] at this
  exact this

/-- A nonempty trimmed value ends with a non-whitespace character. -/
theorem trimChars_getLast_not_ws {l : List Char} {c : Char}
    (h : (trimChars l).getLast? = some c) : isJSWhitespace c = false := by
  have hrev : (trimChars l).reverse = (trimLeft l).reverse.dropWhile isJSWhitespace := by
    unfold trimChars trimRight
    rw [List.reverse_reverse]
  have hh : ((trimLeft l).reverse.dropWhile isJSWhitespace).head? = some c := by
    rw [← hrev, List.head?_reverse]
    exact h
  have := List.head?_dropWhile_not isJSWhitespace (trimLeft l).reverse
  rw [hh] at this
  exact this

/-- A list whose first and last characters are not whitespace is its own
trim. -/
theorem trimChars_eq_self {l : List Char}
    (hh : ∀ c, l.head? = some c → isJSWhitespace c = false)
    (hl : ∀ c, l.getLast? = some c → isJSWhitespace c = false) :
    trimChars l = l := by
  have h1 : trimLeft l = l := by
    unfold trimLeft
    cases l with
    | nil => rfl
    | cons c cs =>
      rw [List.dropWhile_cons_of_neg]
      simpa using hh c rfl
  unfold trimChars trimRight
  rw [h1]
  have h2 : l.reverse.dropWhile isJSWhitespace = l.reverse := by
    cases hr : l.reverse with
    | nil => rfl
    | cons c cs =>
      rw [List.dropWhile_cons_of_neg]
      have hc : l.getLast? = some c := by
        rw [List.getLast?_eq_head?_reverse, hr]
        rfl
      simpa using hl c hc
  rw [h2, List.reverse_reverse]

/-! ## Properties of `splitOnNl` -/

theorem splitOnNl_cons_nl (cs : List Char) : splitOnNl ('\n' :: cs) = [] :: splitOnNl cs := by
  simp [splitOnNl]

theorem splitOnNl_cons_ne {c : Char} (cs : List Char) (hc : ¬ c = '\n') :
    splitOnNl (c :: cs) = (c :: (splitOnNl cs).head!) :: (splitOnNl cs).tail := by
  simp [splitOnNl, if_neg hc]

/-- Splitting always yields at least one segment. -/
theorem splitOnNl_ne_nil : ∀ cs : List Char, splitOnNl cs ≠ []
  | [] => by simp [splitOnNl]
  | c :: cs => by
    simp only [splitOnNl]
    split <;> simp

/-- No segment produced by splitting contains a LINE FEED. -/
theorem splitOnNl_no_newline : ∀ (cs : List Char), ∀ l ∈ splitOnNl cs, '\n' ∉ l := by
  intro cs
  induction cs with
  | nil =>
    intro l hl
    simp [splitOnNl] at hl
    simp [hl]
  | cons c cs ih =>
    intro l hl
    simp only [splitOnNl] at hl
    by_cases hc : c = '\n'
    · rw [if_pos hc] at hl
      rcases List.mem_cons.mp hl with rfl | h
      · simp
      · exact ih l h
    · rw [if_neg hc] at hl
      rcases List.mem_cons.mp hl with rfl | h
      · intro hmem
        rcases List.mem_cons.mp hmem with he | hmem2
        · exact hc he.symm
        · exact ih _ (List.head!_mem_self (splitOnNl_ne_nil cs)) hmem2
      · exact ih l (List.mem_of_mem_tail h)

/-- Every character of a split segment is a character of the input. -/
theorem splitOnNl_subset : ∀ (cs : List Char), ∀ l ∈ splitOnNl cs, ∀ c ∈ l, c ∈ cs := by
  intro cs
  induction cs with
  | nil =>
    intro l hl
    simp [splitOnNl] at hl
    simp [hl]
  | cons c cs ih =>
    intro l hl a ha
    simp only [splitOnNl] at hl
    by_cases hc : c = '\n'
    · rw [if_pos hc] at hl
      rcases List.mem_cons.mp hl with rfl | h
      · simp at ha
      · exact List.mem_cons_of_mem c (ih l h a ha)
    · rw [if_neg hc] at hl
      rcases List.mem_cons.mp hl with rfl | h
      · rcases List.mem_cons.mp ha with rfl | ha2
        · exact List.mem_cons_self a cs
        · exact List.mem_cons_of_mem c
            (ih _ (List.head!_mem_self (splitOnNl_ne_nil cs)) a ha2)
      · exact List.mem_cons_of_mem c (ih l (List.mem_of_mem_tail h) a ha)

/-- A LINE-FEED-free list splits into itself alone. -/
theorem splitOnNl_of_no_newline : ∀ (l : List Char), '\n' ∉ l → splitOnNl l = [l] := by
  intro l
  induction l with
  | nil => intro _; rfl
  | cons c cs ih =>
    intro h
    have hc : ¬ c = '\n' := fun he => h (he ▸ List.mem_cons_self c cs)
    have hcs : '\n' ∉ cs := fun hm => h (List.mem_cons_of_mem c hm)
    simp only [splitOnNl, if_neg hc, ih hcs]
    rfl

/-- Splitting a list of the form `l ++ '\n' :: t` with `'\n' ∉ l` peels
off `l` as the first segment. -/
theorem splitOnNl_append_newline : ∀ (l t : List Char), '\n' ∉ l →
    splitOnNl (l ++ '\n' :: t) = l :: splitOnNl t := by
  intro l
  induction l with
  | nil =>
    intro t _
    simp [splitOnNl]
  | cons c cs ih =>
    intro t h
    have hc : ¬ c = '\n' := fun he => h (he ▸ List.mem_cons_self c cs)
    have hcs : '\n' ∉ cs := fun hm => h (List.mem_cons_of_mem c hm)
    rw [List.cons_append, splitOnNl_cons_ne _ hc, ih t hcs]
    rfl

/-- Glue two split results: all segments of the first except its last,
then the last segment of the first joined with the first segment of the
second, then the remaining segments of the second. -/
def joinLast : List (List Char) → List (List Char) → List (List Char)
  | [], ys => ys
  | [x], [] => [x]
  | [x], y :: ys => (x ++ y) :: ys
  | x :: x' :: xs, ys => x :: joinLast (x' :: xs) ys

/-- Splitting an appended list glues the boundary segments. -/
theorem splitOnNl_append : ∀ xs ys : List Char,
    splitOnNl (xs ++ ys) = joinLast (splitOnNl xs) (splitOnNl ys) := by
  intro xs
  induction xs with
  | nil =>
    intro ys
    cases hy : splitOnNl ys with
    | nil => exact absurd hy (splitOnNl_ne_nil ys)
    | cons y ys' =>
      rw [List.nil_append, hy]
      simp [splitOnNl, joinLast]
  | cons c cs ih =>
    intro ys
    by_cases hc : c = '\n'
    · subst hc
      rw [List.cons_append, splitOnNl_cons_nl, splitOnNl_cons_nl, ih ys]
      cases hS : splitOnNl cs with
      | nil => exact absurd hS (splitOnNl_ne_nil cs)
      | cons s S' => simp [joinLast]
    · rw [List.cons_append, splitOnNl_cons_ne _ hc, splitOnNl_cons_ne _ hc, ih ys]
      cases hS : splitOnNl cs with
      | nil => exact absurd hS (splitOnNl_ne_nil cs)
      | cons s S' =>
        cases S' with
        | nil =>
          cases hT : splitOnNl ys with
          | nil => exact absurd hT (splitOnNl_ne_nil ys)
          | cons t T' => simp [joinLast]
        | cons s' S'' => simp [joinLast]

/-! ## Counting non-blank lines -/

/-- A line is blank when it trims to the empty string. -/
def isBlank (l : List Char) : Bool := (trimChars l).isEmpty

/-- The number of non-blank lines of a text: among the LINE-FEED
separated segments, those that do not trim to empty. -/
def nbLines (cs : List Char) : Nat :=
  ((splitOnNl cs).filter (fun l => !isBlank l)).length

theorem filter_nb_all_blank {W : List (List Char)}
    (h : ∀ l ∈ W, ∀ c ∈ l, isJSWhitespace c) :
    W.filter (fun l => !isBlank l) = [] := by
  apply List.filter_eq_nil_iff.mpr
  intro l hl
  simp [isBlank, List.isEmpty_iff, trimChars_eq_nil_of_all (h l hl)]

/-- Gluing an all-whitespace split result on the right does not change
the non-blank line count. -/
theorem joinLast_filter_right : ∀ S W : List (List Char),
    (∀ l ∈ W, ∀ c ∈ l, isJSWhitespace c) →
    ((joinLast S W).filter (fun l => !isBlank l)).length =
      (S.filter (fun l => !isBlank l)).length
  | [], W, hW => by
    simp only [joinLast]
    rw [filter_nb_all_blank hW]
    rfl
  | [x], [], _ => by simp [joinLast]
  | [x], y :: ys, hW => by
    have hy : ∀ c ∈ y, isJSWhitespace c := hW y (List.mem_cons_self y ys)
    have hys : ys.filter (fun l => !isBlank l) = [] :=
      filter_nb_all_blank (fun l hl => hW l (List.mem_cons_of_mem y hl))
    have hxy : isBlank (x ++ y) = isBlank x := by
      simp [isBlank, trimChars_append_ws hy]
    cases hbx : isBlank x <;>
      simp [joinLast, List.filter_cons, hxy, hbx, hys]
  | x :: x' :: xs, W, hW => by
    have ih := joinLast_filter_right (x' :: xs) W hW
    cases hbx : isBlank x <;>
      simp [joinLast, List.filter_cons, hbx, ih]

/-- Gluing an all-whitespace split result on the left does not change
the non-blank line count. -/
theorem joinLast_filter_left : ∀ W S : List (List Char), S ≠ [] →
    (∀ l ∈ W, ∀ c ∈ l, isJSWhitespace c) →
    ((joinLast W S).filter (fun l => !isBlank l)).length =
      (S.filter (fun l => !isBlank l)).length
  | [], _, _, _ => by simp [joinLast]
  | [w], [], hS, _ => absurd rfl hS
  | [w], y :: ys, _, hW => by
    have hw : ∀ c ∈ w, isJSWhitespace c := hW w (List.mem_cons_self w [])
    have hwy : isBlank (w ++ y) = isBlank y := by
      simp [isBlank, trimChars_ws_append hw]
    cases hby : isBlank y <;>
      simp [joinLast, List.filter_cons, hwy, hby]
  | w :: w' :: wrest, S, hS, hW => by
    have hw : isBlank w = true := by
      simp [isBlank, List.isEmpty_iff,
        trimChars_eq_nil_of_all (hW w (List.mem_cons_self w (w' :: wrest)))]
    have ih := joinLast_filter_left (w' :: wrest) S hS
      (fun l hl => hW l (List.mem_cons_of_mem w hl))
    simp [joinLast, List.filter_cons, hw, ih]

/-- Prepending whitespace does not change the non-blank line count. -/
theorem nbLines_ws_append {w cs : List Char} (h : ∀ c ∈ w, isJSWhitespace c) :
    nbLines (w ++ cs) = nbLines cs := by
  unfold nbLines
  rw [splitOnNl_append]
  exact joinLast_filter_left _ _ (splitOnNl_ne_nil cs)
    (fun l hl c hc => h c (splitOnNl_subset w l hl c hc))

/-- Appending whitespace does not change the non-blank line count. -/
theorem nbLines_append_ws {cs w : List Char} (h : ∀ c ∈ w, isJSWhitespace c) :
    nbLines (cs ++ w) = nbLines cs := by
  unfold nbLines
  rw [splitOnNl_append]
  exact joinLast_filter_right _ _
    (fun l hl c hc => h c (splitOnNl_subset w l hl c hc))

/-- Trimming the whole text does not change the non-blank line count. -/
theorem nbLines_trimChars (cs : List Char) : nbLines (trimChars cs) = nbLines cs := by
  obtain ⟨w1, w2, h1, h2, hdec⟩ := exists_trim_decomp cs
  conv_rhs => rw [hdec]
  rw [List.append_assoc, nbLines_ws_append h1, nbLines_append_ws h2]

/-! ## The emitted lines of the pairing loop -/

theorem trimChars_nil : trimChars [] = [] := rfl

/-- Trimming is idempotent. -/
theorem trimChars_idem (l : List Char) : trimChars (trimChars l) = trimChars l :=
  trimChars_eq_self (fun _ hc => trimChars_head_not_ws hc)
    (fun _ hc => trimChars_getLast_not_ws hc)

theorem jsTruthy_iff {l : List Char} : jsTruthy l = true ↔ l ≠ [] := by
  simp [jsTruthy, List.isEmpty_iff]

/-- The output lines the pairing loop emits: one `name: value` line per
retained pair, in order. -/
def emittedLines : List (List Char) → List (List Char)
  | [] => []
  | [_] => []
  | k :: v :: rest =>
    (if jsTruthy (trimChars k) && jsTruthy (trimChars v) then
        [trimChars k ++ (": ").data ++ trimChars v]
      else []) ++ emittedLines rest

/-- Concatenate lines with a LINE FEED after each. -/
def joinNl : List (List Char) → List Char
  | [] => []
  | l :: ls => l ++ '\n' :: joinNl ls

/-- Join lines with a single LINE FEED between consecutive lines. -/
def intercalateNl : List (List Char) → List Char
  | [] => []
  | [l] => l
  | l :: l' :: ls => l ++ '\n' :: intercalateNl (l' :: ls)

/-- The pairing loop produces exactly its emitted lines, each followed
by a LINE FEED. -/
theorem pairLoop_eq_joinNl : ∀ ls, pairLoop ls = joinNl (emittedLines ls)
  | [] => rfl
  | [k] => by simp [pairLoop, emittedLines, jsTruthyOpt, joinNl]
  | k :: v :: rest => by
    simp only [pairLoop, emittedLines, pairLoop_eq_joinNl rest]
    cases h : jsTruthy (trimChars k) && jsTruthy (trimChars v) <;>
      simp [h, joinNl]

theorem joinNl_eq_intercalateNl : ∀ L : List (List Char), L ≠ [] →
    joinNl L = intercalateNl L ++ ['\n']
  | [l], _ => by simp [joinNl, intercalateNl]
  | l :: l' :: ls, _ => by
    have ih := joinNl_eq_intercalateNl (l' :: ls) (by simp)
    show l ++ '\n' :: joinNl (l' :: ls) = (l ++ '\n' :: intercalateNl (l' :: ls)) ++ ['\n']
    rw [ih]
    simp

/-- Every emitted line is the trimmed name, `": "`, and the trimmed
value of a retained pair of input lines, both non-empty. -/
theorem emittedLines_mem : ∀ (ls : List (List Char)) (l : List Char), l ∈ emittedLines ls →
    ∃ k v, k ∈ ls ∧ v ∈ ls ∧ trimChars k ≠ [] ∧ trimChars v ≠ [] ∧
      l = trimChars k ++ (": ").data ++ trimChars v
  | [], l, h => absurd h (by simp [emittedLines])
  | [_], l, h => absurd h (by simp [emittedLines])
  | k :: v :: rest, l, h => by
    simp only [emittedLines] at h
    rcases List.mem_append.mp h with h1 | h2
    · by_cases hc : (jsTruthy (trimChars k) && jsTruthy (trimChars v)) = true
      · rw [if_pos hc] at h1
        rcases Bool.and_eq_true_iff.mp hc with ⟨hk, hv⟩
        simp only [List.mem_singleton] at h1
        exact ⟨k, v, List.mem_cons_self k (v :: rest),
          List.mem_cons_of_mem k (List.mem_cons_self v rest),
          jsTruthy_iff.mp hk, jsTruthy_iff.mp hv, h1⟩
      · rw [if_neg hc] at h1
        simp at h1
    · obtain ⟨k', v', hk, hv, hk2, hv2, he⟩ := emittedLines_mem rest l h2
      exact ⟨k', v', List.mem_cons_of_mem k (List.mem_cons_of_mem v hk),
        List.mem_cons_of_mem k (List.mem_cons_of_mem v hv), hk2, hv2, he⟩

/-- An emitted line starts with a non-whitespace character. -/
theorem emitted_head_not_ws {k v : List Char} (hk : trimChars k ≠ []) {c : Char}
    (h : (trimChars k ++ (": ").data ++ trimChars v).head? = some c) :
    isJSWhitespace c = false := by
  rw [List.append_assoc, List.head?_append] at h
  cases hh : (trimChars k).head? with
  | none => exact absurd (List.head?_eq_none_iff.mp hh) hk
  | some c' =>
    rw [hh] at h
    simp only [Option.or_some] at h
    cases h
    exact trimChars_head_not_ws hh

/-- An emitted line ends with a non-whitespace character. -/
theorem emitted_getLast_not_ws {k v : List Char} (hv : trimChars v ≠ []) {c : Char}
    (h : (trimChars k ++ (": ").data ++ trimChars v).getLast? = some c) :
    isJSWhitespace c = false := by
  rw [List.getLast?_append] at h
  cases hh : (trimChars v).getLast? with
  | none => exact absurd (List.getLast?_eq_none_iff.mp hh) hv
  | some c' =>
    rw [hh] at h
    simp only [Option.or_some] at h
    cases h
    exact trimChars_getLast_not_ws hh

/-- An emitted line contains no LINE FEED when its source lines do not. -/
theorem emitted_no_newline {k v : List Char} (hk : '\n' ∉ k) (hv : '\n' ∉ v) :
    '\n' ∉ trimChars k ++ (": ").data ++ trimChars v := by
  intro hmem
  rcases List.mem_append.mp hmem with h1 | h2
  · rcases List.mem_append.mp h1 with h3 | h4
    · exact hk ((trimChars_sublist k).subset h3)
    · simp at h4
  · exact hv ((trimChars_sublist v).subset h2)

theorem intercalateNl_ne_nil : ∀ (e : List Char) (E : List (List Char)), e ≠ [] →
    intercalateNl (e :: E) ≠ []
  | e, [], he => by simpa [intercalateNl] using he
  | e, e' :: ls, _ => by
    show e ++ '\n' :: intercalateNl (e' :: ls) ≠ []
    simp

theorem intercalateNl_head? : ∀ (e : List Char) (E : List (List Char)), e ≠ [] →
    (intercalateNl (e :: E)).head? = e.head?
  | _, [], _ => rfl
  | e, e' :: ls, he => by
    show (e ++ '\n' :: intercalateNl (e' :: ls)).head? = e.head?
    rw [List.head?_append]
    cases hh : e.head? with
    | none => exact absurd (List.head?_eq_none_iff.mp hh) he
    | some c => simp

theorem intercalateNl_getLast? : ∀ (e : List Char) (E : List (List Char)),
    (∀ l ∈ e :: E, l ≠ []) →
    ∃ f ∈ e :: E, (intercalateNl (e :: E)).getLast? = f.getLast?
  | e, [], _ => ⟨e, by simp, rfl⟩
  | e, e' :: ls, h => by
    obtain ⟨f, hf, heq⟩ :=
      intercalateNl_getLast? e' ls (fun l hl => h l (List.mem_cons_of_mem e hl))
    refine ⟨f, List.mem_cons_of_mem e hf, ?_⟩
    show (e ++ '\n' :: intercalateNl (e' :: ls)).getLast? = f.getLast?
    rw [List.getLast?_append, ← heq]
    cases hX : intercalateNl (e' :: ls) with
    | nil => exact absurd hX (intercalateNl_ne_nil e' ls (h e' (by simp)))
    | cons x xs =>
      rw [List.getLast?_cons_cons]
      cases hg : (x :: xs).getLast? with
      | none => simp [List.getLast?_eq_none_iff] at hg
      | some y => simp

/-- `formatHeaders` produces exactly its emitted lines joined by single
LINE FEEDs: the final `result.trim()` removes the trailing LINE FEED and
nothing else. -/
theorem formatHeaders_eq_intercalate (input : List Char) :
    formatHeaders input = intercalateNl (emittedLines (filteredLines input)) := by
  unfold formatHeaders
  rw [pairLoop_eq_joinNl]
  cases hE : emittedLines (filteredLines input) with
  | nil => simp [joinNl, intercalateNl, trimChars_nil]
  | cons e E' =>
    have hmem : ∀ l ∈ e :: E', ∃ k v, trimChars k ≠ [] ∧ trimChars v ≠ [] ∧
        l = trimChars k ++ (": ").data ++ trimChars v := by
      intro l hl
      obtain ⟨k, v, _, _, hk, hv, he⟩ := emittedLines_mem _ l (hE ▸ hl)
      exact ⟨k, v, hk, hv, he⟩
    have hne : ∀ l ∈ e :: E', l ≠ [] := by
      intro l hl
      obtain ⟨k, v, hk, _, he⟩ := hmem l hl
      subst he
      intro habs
      rcases List.append_eq_nil.mp habs with ⟨h1, -⟩
      rcases List.append_eq_nil.mp h1 with ⟨h2, -⟩
      exact hk h2
    rw [joinNl_eq_intercalateNl _ (by simp),
      trimChars_append_ws (by decide : ∀ c ∈ ['\n'], isJSWhitespace c)]
    apply trimChars_eq_self
    · intro c hc
      rw [intercalateNl_head? e E' (hne e (by simp))] at hc
      obtain ⟨k, v, hk, _, he⟩ := hmem e (by simp)
      rw [he] at hc
      exact emitted_head_not_ws hk hc
    · intro c hc
      obtain ⟨f, hf, heq⟩ := intercalateNl_getLast? e E' hne
      rw [heq] at hc
      obtain ⟨k, v, _, hv, he⟩ := hmem f hf
      rw [he] at hc
      exact emitted_getLast_not_ws hv hc

/-! ## Recovering the output lines -/

/-- Splitting the joined lines recovers them, provided no line contains
a LINE FEED. -/
theorem splitOnNl_intercalateNl : ∀ E : List (List Char), E ≠ [] →
    (∀ l ∈ E, '\n' ∉ l) → splitOnNl (intercalateNl E) = E
  | [], hne, _ => absurd rfl hne
  | [l], _, h => by
    show splitOnNl l = [l]
    exact splitOnNl_of_no_newline l (h l (by simp))
  | l :: l' :: ls, _, h => by
    show splitOnNl (l ++ '\n' :: intercalateNl (l' :: ls)) = l :: l' :: ls
    rw [splitOnNl_append_newline l _ (h l (by simp)),
      splitOnNl_intercalateNl (l' :: ls) (by simp)
        (fun x hx => h x (List.mem_cons_of_mem l hx))]

theorem filteredLines_no_newline (input : List Char) :
    ∀ l ∈ filteredLines input, '\n' ∉ l := by
  intro l hl
  exact splitOnNl_no_newline _ l (List.mem_of_mem_filter hl)

theorem emittedLines_no_newline (input : List Char) :
    ∀ l ∈ emittedLines (filteredLines input), '\n' ∉ l := by
  intro l hl
  obtain ⟨k, v, hk, hv, _, _, he⟩ := emittedLines_mem _ l hl
  rw [he]
  exact emitted_no_newline (filteredLines_no_newline input k hk)
    (filteredLines_no_newline input v hv)

theorem emittedLines_mem_ne_nil : ∀ (ls : List (List Char)), ∀ l ∈ emittedLines ls, l ≠ [] := by
  intro ls l hl
  obtain ⟨k, v, _, _, hk, _, he⟩ := emittedLines_mem ls l hl
  rw [he]
  intro habs
  rcases List.append_eq_nil.mp habs with ⟨h1, -⟩
  rcases List.append_eq_nil.mp h1 with ⟨h2, -⟩
  exact hk h2

/-- The number of lines of a text: zero for the empty text, otherwise
the number of LINE-FEED separated segments. -/
def lineCount (cs : List Char) : Nat :=
  if cs.isEmpty then 0 else (splitOnNl cs).length

/-- The output has exactly one line per emitted pair. -/
theorem lineCount_formatHeaders (input : List Char) :
    lineCount (formatHeaders input) = (emittedLines (filteredLines input)).length := by
  rw [formatHeaders_eq_intercalate]
  cases hE : emittedLines (filteredLines input) with
  | nil => rfl
  | cons e E' =>
    have hne : e ≠ [] := emittedLines_mem_ne_nil _ e (hE ▸ List.mem_cons_self e E')
    have hi : intercalateNl (e :: E') ≠ [] := intercalateNl_ne_nil e E' hne
    unfold lineCount
    rw [if_neg (by simpa [List.isEmpty_iff] using hi),
      splitOnNl_intercalateNl (e :: E') (by simp)
        (fun l hl => emittedLines_no_newline input l (hE ▸ hl))]

/-- The loop emits at most one line per two non-blank entries. -/
theorem emittedLines_length_le : ∀ ls : List (List Char),
    (emittedLines ls).length ≤ (ls.filter (fun l => !isBlank l)).length / 2
  | [] => by simp [emittedLines]
  | [k] => by simp [emittedLines]
  | k :: v :: rest => by
    have ih := emittedLines_length_le rest
    by_cases h : (jsTruthy (trimChars k) && jsTruthy (trimChars v)) = true
    · rcases Bool.and_eq_true_iff.mp h with ⟨hk, hv⟩
      have hbk : isBlank k = false := by
        simp only [isBlank, List.isEmpty_eq_false]
        exact jsTruthy_iff.mp hk
      have hbv : isBlank v = false := by
        simp only [isBlank, List.isEmpty_eq_false]
        exact jsTruthy_iff.mp hv
      have h1 : (k :: v :: rest).filter (fun l => !isBlank l) =
          k :: v :: rest.filter (fun l => !isBlank l) := by
        simp [List.filter_cons, hbk, hbv]
      rw [h1]
      simp only [emittedLines, if_pos h, List.singleton_append, List.length_cons]
      omega
    · simp only [emittedLines, if_neg h, List.nil_append]
      refine le_trans ih (Nat.div_le_div_right ?_)
      have hstep : ∀ (a : List Char) (ls : List (List Char)),
          (ls.filter (fun l => !isBlank l)).length ≤
            ((a :: ls).filter (fun l => !isBlank l)).length := by
        intro a ls
        cases hba : isBlank a
        · simp [List.filter_cons, hba, Nat.le_succ]
        · simp [List.filter_cons, hba]
      exact le_trans (hstep v rest) (hstep k (v :: rest))

/-- Filtering for non-blank lines sees through the source's
`filter(Boolean)` step: a line that trims to non-empty is in particular
non-empty. -/
theorem filter_nb_filteredLines (input : List Char) :
    (filteredLines input).filter (fun l => !isBlank l) =
      (rawLines input).filter (fun l => !isBlank l) := by
  unfold filteredLines
  rw [List.filter_filter]
  apply List.filter_congr
  intro l _
  cases hb : isBlank l
  · have htne : trimChars l ≠ [] := by
      simpa [isBlank, List.isEmpty_eq_false] using hb
    have hl : l ≠ [] := fun he => htne (by rw [he]; rfl)
    simp [jsTruthy_iff.mpr hl]
  · simp [jsTruthy, hb]

/-! ## The index-based loop agrees with the structural one -/

theorem loopIdx_eq_pairLoop_drop : ∀ (n : Nat) (lines : List (List Char)) (i : Nat),
    lines.length - i ≤ n → loopIdx lines i = pairLoop (lines.drop i)
  | 0, lines, i, hn => by
    unfold loopIdx
    rw [dif_neg (by omega), List.drop_eq_nil_of_le (by omega)]
    rfl
  | n + 1, lines, i, hn => by
    unfold loopIdx
    by_cases h : i < lines.length
    · rw [dif_pos h]
      have hrec := loopIdx_eq_pairLoop_drop n lines (i + 2)
        (show lines.length - (i + 2) ≤ n by omega)
      have hd : lines.drop i = lines[i] :: lines.drop (i + 1) :=
        List.drop_eq_getElem_cons h
      have hget : lines.get? i = some lines[i] := by
        simp [List.get?_eq_getElem?, List.getElem?_eq_getElem h]
      by_cases h2 : i + 1 < lines.length
      · have hd2 : lines.drop (i + 1) = lines[i + 1] :: lines.drop (i + 2) :=
          List.drop_eq_getElem_cons h2
        have hget2 : lines.get? (i + 1) = some lines[i + 1] := by
          simp [List.get?_eq_getElem?, List.getElem?_eq_getElem h2]
        rw [hget, hget2, hrec, hd, hd2]
        simp [pairLoop, jsTruthyOpt]
      · have hd2 : lines.drop (i + 1) = [] :=
          List.drop_eq_nil_of_le (show lines.length ≤ i + 1 by omega)
        have hd3 : lines.drop (i + 2) = [] :=
          List.drop_eq_nil_of_le (show lines.length ≤ i + 2 by omega)
        have hget2 : lines.get? (i + 1) = none := by
          simp only [List.get?_eq_getElem?]
          exact List.getElem?_eq_none (show lines.length ≤ i + 1 by omega)
        rw [hget, hget2, hrec, hd, hd2, hd3]
        simp [pairLoop, jsTruthyOpt]
    · rw [dif_neg h, List.drop_eq_nil_of_le (show lines.length ≤ i by omega)]
      rfl

/-! ## The spec-side positional pairing -/

/-- Positional pairing as the specification words it: pair `2j` with
`2j + 1` over the filtered sequence, for `j` up to half its length. -/
def specPairs (ls : List (List Char)) : List (List Char × List Char) :=
  (List.range (ls.length / 2)).map fun j => (ls.getD (2 * j) [], ls.getD (2 * j + 1) [])

/-- Emission as the specification words it: trim both components; if
either trims to empty the pair is dropped, otherwise one
`name: value` line results. -/
def specEmit (p : List Char × List Char) : List (List Char) :=
  if trimChars p.1 ≠ [] ∧ trimChars p.2 ≠ [] then
    [trimChars p.1 ++ (": ").data ++ trimChars p.2]
  else []

/-- The whole transform as the specification words it: filter, pair
positionally, emit retained pairs in order, join with single LINE
FEEDs. -/
def specFormat (s : String) : String :=
  String.mk (intercalateNl ((specPairs (filteredLines s.data)).map specEmit).flatten)

theorem specPairs_cons (k v : List Char) (rest : List (List Char)) :
    specPairs (k :: v :: rest) = (k, v) :: specPairs rest := by
  unfold specPairs
  have hl : (k :: v :: rest).length = rest.length + 2 := by simp
  rw [hl, Nat.add_div_right _ (by norm_num), List.range_succ_eq_map, List.map_cons,
    List.map_map]
  refine congrArg₂ _ (by simp) ?_
  apply List.map_congr_left
  intro j _
  show ((k :: v :: rest).getD (2 * (j + 1)) [], (k :: v :: rest).getD (2 * (j + 1) + 1) []) = _
  have h1 : 2 * (j + 1) = 2 * j + 1 + 1 := by ring
  rw [h1, List.getD_cons_succ, List.getD_cons_succ, List.getD_cons_succ,
    List.getD_cons_succ]

/-- The loop's emitted lines are exactly the spec-side positional
pairing, emitted pair by pair in order. -/
theorem emittedLines_eq_spec : ∀ ls : List (List Char),
    emittedLines ls = ((specPairs ls).map specEmit).flatten
  | [] => by simp [emittedLines, specPairs]
  | [k] => by simp [emittedLines, specPairs]
  | k :: v :: rest => by
    rw [specPairs_cons, List.map_cons, List.flatten_cons, ← emittedLines_eq_spec rest]
    show (if jsTruthy (trimChars k) && jsTruthy (trimChars v) then
        [trimChars k ++ (": ").data ++ trimChars v] else []) ++ emittedLines rest =
      specEmit (k, v) ++ emittedLines rest
    refine congrArg (fun t => t ++ emittedLines rest) ?_
    by_cases h : trimChars k ≠ [] ∧ trimChars v ≠ []
    · have hb : (jsTruthy (trimChars k) && jsTruthy (trimChars v)) = true := by
        simp [jsTruthy_iff.mpr h.1, jsTruthy_iff.mpr h.2]
      rw [if_pos hb]
      simp [specEmit, if_pos h]
    · have hb : ¬ (jsTruthy (trimChars k) && jsTruthy (trimChars v)) = true := by
        intro hbt
        rcases Bool.and_eq_true_iff.mp hbt with ⟨h1, h2⟩
        exact h ⟨jsTruthy_iff.mp h1, jsTruthy_iff.mp h2⟩
      rw [if_neg hb]
      simp [specEmit, if_neg h]

/-- `format` coincides with the specification-worded transform. -/
theorem format_eq_specFormat (s : String) : format s = specFormat s := by
  unfold format specFormat
  rw [formatHeaders_eq_intercalate, emittedLines_eq_spec]

/-- Dropping the final unpaired entry of an odd-length line list does
not change the loop's output. -/
theorem pairLoop_odd_dropLast : ∀ ls : List (List Char), ls.length % 2 = 1 →
    pairLoop ls = pairLoop ls.dropLast
  | [], h => by simp at h
  | [_], _ => by simp [pairLoop, jsTruthyOpt]
  | k :: v :: rest, h => by
    have hr : rest.length % 2 = 1 := by
      simp only [List.length_cons] at h
      omega
    have hne : rest ≠ [] := by
      intro he
      rw [he] at hr
      simp at hr
    obtain ⟨r, rs, rfl⟩ := List.exists_cons_of_ne_nil hne
    rw [List.dropLast_cons₂, List.dropLast_cons₂]
    show (if jsTruthy (trimChars k) && jsTruthy (trimChars v) then
        trimChars k ++ (": ").data ++ trimChars v ++ ['\n'] else []) ++ pairLoop (r :: rs) =
      (if jsTruthy (trimChars k) && jsTruthy (trimChars v) then
        trimChars k ++ (": ").data ++ trimChars v ++ ['\n'] else []) ++
        pairLoop ((r :: rs).dropLast)
    exact congrArg _ (pairLoop_odd_dropLast (r :: rs) hr)

/-! ## The claims -/

/-- C1: `format` pairs the filtered (blank-removed) lines strictly by
position — entry `2j` with entry `2j + 1` — and emits the retained pairs
in the same relative order as in the input: it coincides with the
specification-worded positional transform `specFormat`; in particular
`format "A\nB\nC\nD" = "A: B\nC: D"`. -/
theorem claim_C1 :
    (∀ s : String, format s = specFormat s) ∧
      format "A\nB\nC\nD" = "A: B\nC: D" :=
  ⟨format_eq_specFormat, by decide⟩

/-- C2: the filtering step removes only entries that are empty as
strings: every non-empty line of the split — including whitespace-only
lines — is kept in the filtered sequence and participates in positional
pairing, being trimmed only later.  Concretely, in `"A\n \nB"` the
whitespace-only second line is kept, pairs with `"A"`, the pair is then
dropped because the value trims to empty, and `"B"` is left unpaired, so
the output is `""`. -/
theorem claim_C2 :
    (∀ input l : List Char, l ∈ rawLines input → l ≠ [] → l ∈ filteredLines input) ∧
      (∀ input l : List Char, l ∈ filteredLines input → l ≠ []) ∧
      format "A\n \nB" = "" := by
  refine ⟨?_, ?_, by decide⟩
  · intro input l hl hne
    exact List.mem_filter.mpr ⟨hl, jsTruthy_iff.mpr hne⟩
  · intro input l hl
    exact jsTruthy_iff.mp (List.of_mem_filter hl)

theorem claim_C2_witness :
    ([' '] ∈ filteredLines ("A\n \nB").data) ∧
      (['A'] : List Char) ≠ [] ∧ format "A\n \nB" = "" :=
  ⟨claim_C2.1 ("A\n \nB").data [' '] (by decide) (by decide),
    claim_C2.2.1 ("A\n \nB").data ['A'] (by decide), claim_C2.2.2⟩

/-- C3: empty-string lines are discarded before pairing — no entry of
the filtered sequence is empty — so a name pairs with the next non-empty
line rather than with an intervening blank line: `format "A\n\nB" =
"A: B"`. -/
theorem claim_C3 :
    (∀ input l : List Char, l ∈ filteredLines input → l ≠ []) ∧
      format "A\n\nB" = "A: B" := by
  refine ⟨?_, by decide⟩
  intro input l hl
  exact jsTruthy_iff.mp (List.of_mem_filter hl)

theorem claim_C3_witness :
    (['A'] : List Char) ≠ [] ∧ format "A\n\nB" = "A: B" :=
  ⟨claim_C3.1 ("A\n\nB").data ['A'] (by decide), claim_C3.2⟩

/-- C4: for every retained pair the loop trims both the name and the
value of leading and trailing whitespace and emits `name: value`; in
particular `format " A \n B " = "A: B"`. -/
theorem claim_C4 :
    (∀ (k v : List Char) (rest : List (List Char)),
        trimChars k ≠ [] → trimChars v ≠ [] →
        pairLoop (k :: v :: rest) =
          trimChars k ++ (": ").data ++ trimChars v ++ '\n' :: pairLoop rest) ∧
      format " A \n B " = "A: B" := by
  refine ⟨?_, by decide⟩
  intro k v rest hk hv
  have hb : (jsTruthy (trimChars k) && jsTruthy (trimChars v)) = true := by
    simp [jsTruthy_iff.mpr hk, jsTruthy_iff.mpr hv]
  show (if jsTruthy (trimChars k) && jsTruthy (trimChars v) then
      trimChars k ++ (": ").data ++ trimChars v ++ ['\n'] else []) ++ pairLoop rest = _
  rw [if_pos hb]
  simp

theorem claim_C4_witness :
    pairLoop [[' ', 'A', ' '], [' ', 'B']] =
      trimChars [' ', 'A', ' '] ++ (": ").data ++ trimChars [' ', 'B'] ++
        '\n' :: pairLoop [] ∧
      format " A \n B " = "A: B" :=
  ⟨claim_C4.1 [' ', 'A', ' '] [' ', 'B'] [] (by decide) (by decide), claim_C4.2⟩

/-- C5: a final unpaired name contributes nothing, and a pair whose name
or value trims to empty is dropped silently, with no error signalled; in
particular `format "OnlyKey" = ""`. -/
theorem claim_C5 :
    (∀ ls : List (List Char), ls.length % 2 = 1 → pairLoop ls = pairLoop ls.dropLast) ∧
      (∀ (k v : List Char) (rest : List (List Char)),
        trimChars k = [] ∨ trimChars v = [] → pairLoop (k :: v :: rest) = pairLoop rest) ∧
      format "OnlyKey" = "" := by
  refine ⟨pairLoop_odd_dropLast, ?_, by decide⟩
  intro k v rest h
  have hb : ¬ (jsTruthy (trimChars k) && jsTruthy (trimChars v)) = true := by
    intro hbt
    rcases Bool.and_eq_true_iff.mp hbt with ⟨h1, h2⟩
    rcases h with h | h
    · exact jsTruthy_iff.mp h1 h
    · exact jsTruthy_iff.mp h2 h
  show (if jsTruthy (trimChars k) && jsTruthy (trimChars v) then
      trimChars k ++ (": ").data ++ trimChars v ++ ['\n'] else []) ++ pairLoop rest = _
  rw [if_neg hb]
  simp

theorem claim_C5_witness :
    pairLoop [['O', 'K']] = pairLoop ([['O', 'K']].dropLast) ∧
      pairLoop [[' '], ['B']] = pairLoop [] ∧ format "OnlyKey" = "" :=
  ⟨claim_C5.1 [['O', 'K']] (by decide), claim_C5.2.1 [' '] ['B'] [] (Or.inl (by decide)),
    claim_C5.2.2⟩

/-- C6: the empty input yields the empty output. -/
theorem claim_C6 : format "" = "" := by decide

/-- C7: the number of output lines is at most half the number of
non-blank input lines (lines that do not trim to empty), rounded
down. -/
theorem claim_C7 (s : String) :
    lineCount (format s).data ≤ nbLines s.data / 2 := by
  show lineCount (formatHeaders s.data) ≤ _
  rw [lineCount_formatHeaders]
  refine le_trans (emittedLines_length_le (filteredLines s.data)) ?_
  rw [filter_nb_filteredLines]
  have hraw : ((rawLines s.data).filter (fun l => !isBlank l)).length =
      nbLines (trimChars s.data) := rfl
  rw [hraw, nbLines_trimChars]

/-- C8: the literal index-based `for (i += 2)` loop of the source — with
out-of-bounds array reads yielding `undefined` (`Option`) and the
optional chain guarding `trim` — is a total function agreeing with
`format` on every input, malformed or not: the transform is total,
deterministic and pure, and raises no exception. -/
theorem claim_C8 (s : String) :
    String.mk (trimChars (loopIdx (filteredLines s.data) 0)) = format s := by
  unfold format formatHeaders
  rw [loopIdx_eq_pairLoop_drop (filteredLines s.data).length (filteredLines s.data) 0
    (by omega), List.drop_zero]

/-- C9: the whole raw input is trimmed before splitting, so leading or
trailing whitespace (including whitespace-only edge lines) never
participates in filtering or pairing; in particular
`format " \nA\nB" = "A: B"`. -/
theorem claim_C9 :
    (∀ input w1 w2 : List Char, (∀ c ∈ w1, isJSWhitespace c) →
        (∀ c ∈ w2, isJSWhitespace c) →
        formatHeaders (w1 ++ input ++ w2) = formatHeaders input) ∧
      format " \nA\nB" = "A: B" := by
  refine ⟨?_, by decide⟩
  intro input w1 w2 h1 h2
  unfold formatHeaders filteredLines rawLines
  rw [List.append_assoc, trimChars_ws_append h1, trimChars_append_ws h2]

theorem claim_C9_witness :
    formatHeaders ([' ', '\n'] ++ ("A\nB").data ++ ['\t']) = formatHeaders ("A\nB").data ∧
      format " \nA\nB" = "A: B" :=
  ⟨claim_C9.1 ("A\nB").data [' ', '\n'] ['\t'] (by decide) (by decide), claim_C9.2⟩

/-- C10: every output line is exactly `name: value` with non-empty,
fully-trimmed name and value — hence the output has no blank lines
anywhere — and the output carries no trailing newline: its last
character, when present, is never whitespace. -/
theorem claim_C10 :
    (∀ (s : String) (l : List Char), (format s).data ≠ [] →
        l ∈ splitOnNl (format s).data →
        ∃ k v, l = k ++ (": ").data ++ v ∧ k ≠ [] ∧ v ≠ [] ∧
          trimChars k = k ∧ trimChars v = v) ∧
      (∀ (s : String) (c : Char), (format s).data.getLast? = some c →
        isJSWhitespace c = false) := by
  constructor
  · intro s l hne hl
    have hdata : (format s).data = intercalateNl (emittedLines (filteredLines s.data)) :=
      formatHeaders_eq_intercalate s.data
    rw [hdata] at hne hl
    cases hE : emittedLines (filteredLines s.data) with
    | nil =>
      rw [hE] at hne
      simp [intercalateNl] at hne
    | cons e E' =>
      rw [hE] at hl
      rw [splitOnNl_intercalateNl (e :: E') (by simp)
        (fun x hx => emittedLines_no_newline s.data x (hE ▸ hx))] at hl
      obtain ⟨k, v, _, _, hk, hv, he⟩ := emittedLines_mem _ l (hE ▸ hl)
      exact ⟨trimChars k, trimChars v, he, hk, hv, trimChars_idem k, trimChars_idem v⟩
  · intro s c hc
    have hdata : (format s).data = trimChars (pairLoop (filteredLines s.data)) := rfl
    rw [hdata] at hc
    exact trimChars_getLast_not_ws hc

theorem claim_C10_witness :
    (∃ k v, ("A: B").data = k ++ (": ").data ++ v ∧ k ≠ [] ∧ v ≠ [] ∧
        trimChars k = k ∧ trimChars v = v) ∧
      isJSWhitespace 'B' = false :=
  ⟨claim_C10.1 "A\nB" ("A: B").data (by decide) (by decide),
    claim_C10.2 "A\nB" 'B' (by decide)⟩
